import Mathlib

/-!
# Byte-sequence formatting of `ttnctl devices info`

A shallow embedding of `formatBytes`, `cStyle` and `reverse` from
`ttnctl/cmd/devices_info.go`, together with the two verbs of Go's `fmt`
package they call (`%X` on a byte slice and `%02X` on a byte), and the
properties of the formatting engine stated over that embedding.
-/

namespace TTN

/-- A Go `byte` (`uint8`). -/
abbrev Byte := Fin 256

/-! ## The verbs of Go's `fmt` used by the source -/

/-- The constant `udigits` of Go's `fmt/format.go`: the upper-case digit table. -/
def udigits : List Char := "0123456789ABCDEFX".toList

/-- Table lookup `udigits[i]`. -/
def udigit (i : Nat) : Char := udigits.getD i '0'

/-- The loop of `fmtSbx` in Go's `fmt/format.go`, which serves `%X` on a byte
slice: `buf = append(buf, digits[c>>4], digits[c&0xF])` for each byte `c`. -/
def fmtSbxLoop : List Byte → String → String
  | [], buf => buf
  | c :: rest, buf =>
    fmtSbxLoop rest ((buf.push (udigit (c.val >>> 4))).push (udigit (c.val &&& 0xF)))

/-- The call `fmt.Sprintf("%X", b)` for a byte slice `b`: `fmtSbx` with the
upper-case digits and no flag, width or precision. For an empty slice `fmtSbx`
returns before its loop, having written nothing. -/
def sprintfX (b : List Byte) : String := fmtSbxLoop b ""

/-- The digit loop of `fmtInteger` in Go's `fmt/format.go` for base 16:
`for u >= 16 { i--; buf[i] = digits[u&0xF]; u >>= 4 }; i--; buf[i] = digits[u]`.
The buffer is filled from its end, so each digit is put in front of the ones
already written. The fuel bounds the number of iterations. -/
def fmtIntegerDigits : Nat → Nat → List Char → List Char
  | 0, u, buf => udigit u :: buf
  | fuel + 1, u, buf =>
    if u ≥ 16 then fmtIntegerDigits fuel (u >>> 4) (udigit (u &&& 0xF) :: buf)
    else udigit u :: buf

/-- The zero-padding loop of `fmtInteger`: `for i > 0 && prec > len(buf)-i
{ i--; buf[i] = '0' }`. -/
def fmtIntegerPad : Nat → Nat → List Char → List Char
  | 0, _, buf => buf
  | fuel + 1, prec, buf =>
    if prec > buf.length then fmtIntegerPad fuel prec ('0' :: buf) else buf

/-- The verb `%02X` applied to a byte: `fmtInteger` with base 16, the
upper-case digits, and the precision taken from the width 2 since the zero
flag is set. A byte has at most two hexadecimal digits, and at most two
zeros are put in front. -/
def fmt02X (b : Byte) : String :=
  String.mk (fmtIntegerPad 2 2 (fmtIntegerDigits 2 b.val []))

/-- The call `fmt.Sprintf("0x%02X", b)` for a byte `b`. -/
def sprintf0x02X (b : Byte) : String := "0x" ++ fmt02X b

/-! ## The source -/

/-- The loop of `reverse`: `for i := len(in) - 1; i >= 0; i-- { out = append(out, in[i]) }`.
The counter `k` is `i + 1`, so the loop ends at `k = 0` and reads `in[k - 1]`. -/
def reverseLoop (inp : List Byte) : (k : Nat) → k ≤ inp.length → List Byte → List Byte
  | 0, _, out => out
  | k + 1, h, out => reverseLoop inp k (Nat.le_of_succ_le h) (out ++ [inp[k]])

/-- The function `reverse` of `devices_info.go`. -/
def reverse (inp : List Byte) : List Byte :=
  reverseLoop inp inp.length (Nat.le_refl _) []

/-- The loop of `cStyle`: `for i, b := range bytes { if i != 0 { output += ", " };
output += fmt.Sprintf("0x%02X", b) }`. -/
def cStyleLoop : List Byte → Nat → String → String
  | [], _, output => output
  | b :: rest, i, output =>
    let output := if i ≠ 0 then output ++ ", " else output
    cStyleLoop rest (i + 1) (output ++ sprintf0x02X b)

/-- The function `cStyle` of `devices_info.go`. -/
def cStyle (bytes : List Byte) (msbf : Bool) : String :=
  let output := "\x7b"
  let bytes := if !msbf then reverse bytes else bytes
  let output := cStyleLoop bytes 0 output
  output ++ "\x7d"

/-- The argument `toPrint interface{}` of `formatBytes`. A value that
implements `formattableBytes` carries the results of its `IsEmpty()` and
`Bytes()` methods; every value carries the text `fmt.Sprintf("%s", toPrint)`
gives for it, which depends on its concrete type (declared outside this
file). -/
inductive Value where
  | formattable (isEmpty : Bool) (bytes : List Byte) (str : String)
  | other (str : String)

/-- The call `fmt.Sprintf("%s", toPrint)`. -/
def sprintfS : Value → String
  | .formattable _ _ str => str
  | .other str => str

/-- The function `formatBytes` of `devices_info.go`. -/
def formatBytes (toPrint : Value) (format : String) : String :=
  match toPrint with
  | .formattable isEmpty bytes _ =>
    if isEmpty then "<nil>"
    else if format = "msb" then cStyle bytes true ++ " (msb first)"
    else if format = "lsb" then cStyle bytes false ++ " (lsb first)"
    else if format = "hex" then sprintfX bytes
    else sprintfS toPrint
  | .other _ => sprintfS toPrint

/-! ## The wording of the specification -/

/-- One upper-case hexadecimal digit, by arithmetic on character codes:
`0`..`9` for 0..9 and `A`..`F` for 10..15. -/
def hexDigitUpper (d : Nat) : Char :=
  if d < 10 then Char.ofNat (48 + d) else Char.ofNat (55 + d)

/-- The two-digit upper-case hexadecimal rendering of a byte. -/
def hexByte (b : Byte) : String :=
  String.mk [hexDigitUpper (b.val / 16), hexDigitUpper (b.val % 16)]

/-- The hexadecimal string of the specification: the two-digit renderings of
the bytes, in order, with nothing between them. -/
def specHex (b : List Byte) : String := String.join (b.map hexByte)

/-- The brace-delimited list of the specification: the items `0x` + two
digits, joined by a comma and a space, between braces. -/
def specBraces (b : List Byte) : String :=
  "\x7b" ++ ", ".intercalate (b.map fun x => "0x" ++ hexByte x) ++ "\x7d"

/-! ## Lemmas on `reverse` -/

theorem reverseLoop_eq (inp : List Byte) (k : Nat) (h : k ≤ inp.length) (out : List Byte) :
    reverseLoop inp k h out = out ++ (inp.take k).reverse := by
  induction k generalizing out with
  | zero => simp [reverseLoop]
  | succ k ih =>
    have hk : k < inp.length := h
    rw [reverseLoop, ih, List.take_succ, List.getElem?_eq_getElem hk, List.append_assoc,
      List.reverse_append]
    rfl

theorem reverse_eq_list_reverse (b : List Byte) : reverse b = b.reverse := by
  simp [reverse, reverseLoop_eq]

/-! ## Lemmas on the `fmt` verbs -/

set_option maxRecDepth 100000 in
theorem udigit_shift_eq (c : Byte) : udigit (c.val >>> 4) = hexDigitUpper (c.val / 16) := by
  revert c; decide

set_option maxRecDepth 100000 in
theorem udigit_mask_eq (c : Byte) : udigit (c.val &&& 0xF) = hexDigitUpper (c.val % 16) := by
  revert c; decide

set_option maxRecDepth 100000 in
theorem fmt02X_eq_hexByte (b : Byte) : fmt02X b = hexByte b := by
  revert b; decide

theorem push_push_eq (s : String) (a b : Char) :
    (s.push a).push b = s ++ String.mk [a, b] := by
  apply String.ext
  simp [String.push, String.data_append]

theorem foldl_append_eq (l : List String) (acc : String) :
    l.foldl (fun r s => r ++ s) acc = acc ++ l.foldl (fun r s => r ++ s) "" := by
  induction l generalizing acc with
  | nil => simp
  | cons x xs ih =>
    rw [List.foldl_cons, List.foldl_cons, ih (acc ++ x), ih ("" ++ x)]
    simp [String.append_assoc]

theorem join_cons_eq (x : String) (xs : List String) :
    String.join (x :: xs) = x ++ String.join xs := by
  unfold String.join
  rw [List.foldl_cons, foldl_append_eq]
  simp

theorem fmtSbxLoop_eq (b : List Byte) (buf : String) :
    fmtSbxLoop b buf = buf ++ specHex b := by
  induction b generalizing buf with
  | nil => simp [fmtSbxLoop, specHex, String.join]
  | cons c rest ih =>
    rw [fmtSbxLoop, ih, push_push_eq, udigit_shift_eq, udigit_mask_eq]
    simp [specHex, join_cons_eq, hexByte, String.append_assoc]

theorem sprintfX_eq_specHex (b : List Byte) : sprintfX b = specHex b := by
  simp [sprintfX, fmtSbxLoop_eq]

/-! ## Lemmas on `cStyle` -/

theorem intercalate_go_eq (sep : String) (l : List String) (acc : String) :
    String.intercalate.go acc sep l = acc ++ String.join (l.map fun x => sep ++ x) := by
  induction l generalizing acc with
  | nil => simp [String.intercalate.go, String.join]
  | cons x xs ih =>
    rw [String.intercalate.go, ih, List.map_cons, join_cons_eq]
    simp [String.append_assoc]

theorem cStyleLoop_succ_eq (bytes : List Byte) (i : Nat) (output : String) :
    cStyleLoop bytes (i + 1) output
      = output ++ String.join (bytes.map fun x => ", " ++ ("0x" ++ hexByte x)) := by
  induction bytes generalizing i output with
  | nil => simp [cStyleLoop, String.join]
  | cons b rest ih =>
    rw [cStyleLoop, ih, List.map_cons, join_cons_eq]
    simp [sprintf0x02X, fmt02X_eq_hexByte, String.append_assoc]

theorem cStyleLoop_zero_eq (bytes : List Byte) (output : String) :
    cStyleLoop bytes 0 output
      = output ++ ", ".intercalate (bytes.map fun x => "0x" ++ hexByte x) := by
  cases bytes with
  | nil => simp [cStyleLoop, String.intercalate]
  | cons b rest =>
    rw [cStyleLoop, cStyleLoop_succ_eq, List.map_cons, String.intercalate, intercalate_go_eq]
    simp [sprintf0x02X, fmt02X_eq_hexByte, String.append_assoc, List.map_map, Function.comp_def]

theorem cStyle_msb_eq (b : List Byte) : cStyle b true = specBraces b := by
  simp [cStyle, specBraces, cStyleLoop_zero_eq]

theorem cStyle_lsb_eq (b : List Byte) : cStyle b false = cStyle (reverse b) true := by
  simp [cStyle]

theorem specHex_length (b : List Byte) : (specHex b).length = 2 * b.length := by
  induction b with
  | nil => simp [specHex, String.join]
  | cons c rest ih =>
    have h : (specHex (c :: rest)) = hexByte c ++ specHex rest := by
      simp [specHex, join_cons_eq]
    rw [h, String.length_append, ih]
    simp [hexByte, String.length]
    omega

set_option maxRecDepth 100000 in
theorem hexByte_chars :
    ∀ y : Byte, ∀ c ∈ (hexByte y).data, c ∈ "0123456789ABCDEF".toList := by
  decide

theorem specHex_chars (b : List Byte) :
    ∀ c ∈ (specHex b).data, c ∈ "0123456789ABCDEF".toList := by
  induction b with
  | nil => simp [specHex, String.join]
  | cons x rest ih =>
    have h : (specHex (x :: rest)) = hexByte x ++ specHex rest := by
      simp [specHex, join_cons_eq]
    have hx := hexByte_chars
    intro c hc
    rw [h, String.data_append, List.mem_append] at hc
    rcases hc with hc | hc
    · exact hx x c hc
    · exact ih c hc

theorem cStyle_true_ne_nil (b : List Byte) (suffix : String) :
    cStyle b true ++ suffix ≠ "<nil>" := by
  intro h
  have h2 := congrArg (fun s => s.data.head?) h
  simp [cStyle_msb_eq, specBraces, String.data_append] at h2

theorem hex_length_aux (bytes : List Byte) (str : String) :
    (formatBytes (.formattable false bytes str) "hex").length = 2 * bytes.length := by
  simp [formatBytes, sprintfX_eq_specHex, specHex_length]

/-! ## The claims -/

/-- C1: for every byte sequence `b` of length N, `reverse b` has length N and
its element at index `i` is `b[N-1-i]` for every `i < N`, that is, `reverse`
is list reversal; for N = 0 it is empty and for N = 1 it has the content of
`b`. -/
theorem reverse_spec (b : List Byte) :
    (reverse b).length = b.length
    ∧ (∀ i : Fin b.length, (reverse b)[i.val]? = b[b.length - 1 - i.val]?
        ∧ (reverse b)[i.val]?.isSome = true)
    ∧ reverse b = b.reverse
    ∧ reverse [] = []
    ∧ ∀ x : Byte, reverse [x] = [x] := by
  refine ⟨by simp [reverse_eq_list_reverse], ?_, reverse_eq_list_reverse b, rfl, fun x => rfl⟩
  intro i
  have hi := i.isLt
  rw [reverse_eq_list_reverse, List.getElem?_reverse hi]
  refine ⟨rfl, ?_⟩
  rw [List.getElem?_eq_getElem (by omega)]
  rfl

/-- C2: `reverse (reverse b) = b` for every byte sequence `b`. -/
theorem reverse_involution (b : List Byte) : reverse (reverse b) = b := by
  rw [reverse_eq_list_reverse, reverse_eq_list_reverse, List.reverse_reverse]

/-- C3: `reverse b` has the length of `b` and is a permutation of `b`: every
byte value occurs as often in `reverse b` as in `b`. -/
theorem reverse_length_perm (b : List Byte) :
    (reverse b).length = b.length
    ∧ (reverse b).Perm b
    ∧ ∀ x : Byte, (reverse b).count x = b.count x := by
  rw [reverse_eq_list_reverse]
  exact ⟨List.length_reverse b, List.reverse_perm b, fun x => List.count_reverse x b⟩

/-- C4: a value that implements `formattableBytes` and reports
`IsEmpty() = true` is formatted as `<nil>` for every format string and
whatever its bytes are. -/
theorem formatBytes_empty (bytes : List Byte) (str format : String) :
    formatBytes (.formattable true bytes str) format = "<nil>" := by
  simp [formatBytes]

/-- C5: for a value not flagged empty with bytes `b`, the format `hex` gives
the two-digit upper-case hexadecimal renderings of the bytes of `b`, in stored
order, with no separator and no prefix: the length is `2 * len(b)`, every
character is a hexadecimal digit, the result is empty for `len(b) = 0`, and
the bytes DE AD BE EF give `DEADBEEF`. -/
theorem formatBytes_hex (bytes : List Byte) (str : String) :
    formatBytes (.formattable false bytes str) "hex" = specHex bytes
    ∧ (formatBytes (.formattable false bytes str) "hex").length = 2 * bytes.length
    ∧ (∀ c ∈ (formatBytes (.formattable false bytes str) "hex").data,
        c ∈ "0123456789ABCDEF".toList)
    ∧ formatBytes (.formattable false [] str) "hex" = ""
    ∧ formatBytes (.formattable false [0xDE, 0xAD, 0xBE, 0xEF] str) "hex" = "DEADBEEF" := by
  have h : ∀ b : List Byte, formatBytes (.formattable false b str) "hex" = specHex b := by
    intro b
    simp [formatBytes, sprintfX_eq_specHex]
  refine ⟨h bytes, ?_, ?_, ?_, ?_⟩
  · rw [h, specHex_length]
  · rw [h]; exact specHex_chars bytes
  · rw [h]; decide
  · rw [h]; decide

/-- C6: for a value not flagged empty with bytes `b`, the format `msb` gives an
opening brace, the items `0x` + two upper-case hexadecimal digits of each byte
of `b` in stored order joined by a comma and a space, a closing brace, and
then ` (msb first)`; no bytes give `{} (msb first)`, and the bytes DE AD BE EF
give `{0xDE, 0xAD, 0xBE, 0xEF} (msb first)`. -/
theorem formatBytes_msb (bytes : List Byte) (str : String) :
    formatBytes (.formattable false bytes str) "msb"
      = "\x7b" ++ ", ".intercalate (bytes.map fun x => "0x" ++ hexByte x) ++ "\x7d" ++ " (msb first)"
    ∧ formatBytes (.formattable false [] str) "msb" = "\x7b\x7d (msb first)"
    ∧ formatBytes (.formattable false [0xDE, 0xAD, 0xBE, 0xEF] str) "msb"
        = "\x7b0xDE, 0xAD, 0xBE, 0xEF\x7d (msb first)" := by
  have h : ∀ b : List Byte,
      formatBytes (.formattable false b str) "msb" = specBraces b ++ " (msb first)" := by
    intro b
    simp [formatBytes, cStyle_msb_eq]
  refine ⟨h bytes, ?_, ?_⟩
  · rw [h]; decide
  · rw [h]; decide

/-- C7: for a value not flagged empty with bytes `b`, the format `lsb` gives
the brace-delimited rendering that `msb` produces for `reverse b`, that is
`cStyle b false = cStyle (reverse b) true`, followed by ` (lsb first)`; the
bytes DE AD BE EF give `{0xEF, 0xBE, 0xAD, 0xDE} (lsb first)` and 01 02 03 04
give `{0x04, 0x03, 0x02, 0x01} (lsb first)`. -/
theorem formatBytes_lsb (bytes : List Byte) (str : String) :
    formatBytes (.formattable false bytes str) "lsb"
      = cStyle (reverse bytes) true ++ " (lsb first)"
    ∧ cStyle bytes false = cStyle (reverse bytes) true
    ∧ formatBytes (.formattable false (reverse bytes) str) "msb"
        = cStyle (reverse bytes) true ++ " (msb first)"
    ∧ formatBytes (.formattable false bytes str) "lsb"
        = specBraces bytes.reverse ++ " (lsb first)"
    ∧ formatBytes (.formattable false [0xDE, 0xAD, 0xBE, 0xEF] str) "lsb"
        = "\x7b0xEF, 0xBE, 0xAD, 0xDE\x7d (lsb first)"
    ∧ formatBytes (.formattable false [0x01, 0x02, 0x03, 0x04] str) "lsb"
        = "\x7b0x04, 0x03, 0x02, 0x01\x7d (lsb first)" := by
  have h : ∀ b : List Byte,
      formatBytes (.formattable false b str) "lsb"
        = specBraces b.reverse ++ " (lsb first)" := by
    intro b
    simp [formatBytes, cStyle_lsb_eq, cStyle_msb_eq, reverse_eq_list_reverse]
  refine ⟨?_, cStyle_lsb_eq bytes, ?_, h bytes, ?_, ?_⟩
  · simp [formatBytes, cStyle_lsb_eq]
  · simp [formatBytes]
  · rw [h]; decide
  · rw [h]; decide

/-- C8, as the specification states it, fails: the value with bytes DE AD BE EF
whose `%s` text is `DEADBEEF`, not flagged empty, formatted with `xyz` (which
is none of `hex`, `msb`, `lsb`) gives `DEADBEEF`, not the empty string. -/
theorem unknown_format_counterexample :
    "xyz" ≠ "hex" ∧ "xyz" ≠ "msb" ∧ "xyz" ≠ "lsb"
    ∧ formatBytes (.formattable false [0xDE, 0xAD, 0xBE, 0xEF] "DEADBEEF") "xyz" = "DEADBEEF"
    ∧ formatBytes (.formattable false [0xDE, 0xAD, 0xBE, 0xEF] "DEADBEEF") "xyz" ≠ "" := by
  decide

/-- C8, amended: for a value not flagged empty and a format string other than
`hex`, `msb` and `lsb`, `formatBytes` falls through to
`fmt.Sprintf("%s", toPrint)`: the result is the default string rendering of
the value. -/
theorem formatBytes_unknown_format (bytes : List Byte) (str format : String)
    (hhex : format ≠ "hex") (hmsb : format ≠ "msb") (hlsb : format ≠ "lsb") :
    formatBytes (.formattable false bytes str) format
      = sprintfS (.formattable false bytes str)
    ∧ formatBytes (.formattable false bytes str) format = str := by
  simp [formatBytes, hhex, hmsb, hlsb, sprintfS]

/-- The fall-through at the format `json`, for the bytes 01 02 whose `%s` text
is `0102`. -/
theorem formatBytes_unknown_format_witness :
    ("json" ≠ "hex" ∧ "json" ≠ "msb" ∧ "json" ≠ "lsb")
    ∧ formatBytes (.formattable false [0x01, 0x02] "0102") "json"
      = sprintfS (.formattable false [0x01, 0x02] "0102")
    ∧ formatBytes (.formattable false [0x01, 0x02] "0102") "json" = "0102" :=
  ⟨by decide,
    formatBytes_unknown_format [0x01, 0x02] "0102" "json" (by decide) (by decide) (by decide)⟩

/-- C9: for a format among `hex`, `msb` and `lsb`, a value not flagged empty,
whatever its bytes (all zero, or none at all), is never formatted as `<nil>`;
so the output is `<nil>` exactly when the value reports itself empty. -/
theorem formatBytes_nil_iff_empty (format : String)
    (hf : format = "hex" ∨ format = "msb" ∨ format = "lsb") :
    (∀ (bytes : List Byte) (str : String),
        formatBytes (.formattable false bytes str) format ≠ "<nil>")
    ∧ (∀ (isEmpty : Bool) (bytes : List Byte) (str : String),
        formatBytes (.formattable isEmpty bytes str) format = "<nil>" ↔ isEmpty = true) := by
  have h1 : ∀ (bytes : List Byte) (str : String),
      formatBytes (.formattable false bytes str) format ≠ "<nil>" := by
    intro bytes str
    rcases hf with hf | hf | hf
    · subst hf
      intro h
      have hl := (hex_length_aux bytes str)
      rw [h] at hl
      have : (5 : Nat) = 2 * bytes.length := hl
      omega
    · subst hf
      simpa [formatBytes] using cStyle_true_ne_nil bytes " (msb first)"
    · subst hf
      simpa [formatBytes, cStyle_lsb_eq] using cStyle_true_ne_nil (reverse bytes) " (lsb first)"
  refine ⟨h1, ?_⟩
  intro isEmpty bytes str
  cases isEmpty with
  | true => simp [formatBytes]
  | false => simpa using h1 bytes str

/-- The equivalence at the format `lsb`. -/
theorem formatBytes_nil_iff_empty_witness :
    ("lsb" = "hex" ∨ "lsb" = "msb" ∨ "lsb" = "lsb")
    ∧ (∀ (bytes : List Byte) (str : String),
        formatBytes (.formattable false bytes str) "lsb" ≠ "<nil>")
    ∧ (∀ (isEmpty : Bool) (bytes : List Byte) (str : String),
        formatBytes (.formattable isEmpty bytes str) "lsb" = "<nil>" ↔ isEmpty = true) :=
  ⟨Or.inr (Or.inr rfl), formatBytes_nil_iff_empty "lsb" (Or.inr (Or.inr rfl))⟩

/-- C10: rendering `reverse (reverse b)` in msb style gives the text of
rendering `b` in msb style, and the lsb-style rendering of `reverse b` has the
brace-delimited body of the msb-style rendering of `b`. -/
theorem cStyle_round_trip (b : List Byte) :
    cStyle (reverse (reverse b)) true = cStyle b true
    ∧ cStyle (reverse b) false = cStyle b true := by
  have h : reverse (reverse b) = b := by
    rw [reverse_eq_list_reverse, reverse_eq_list_reverse, List.reverse_reverse]
  exact ⟨by rw [h], by rw [cStyle_lsb_eq, h]⟩

end TTN
